import Mathlib

/-!
# GSYM reader (llvm/DebugInfo/GSYM/GsymReader.h): shallow embedding

This file embeds the inline-defined members of `llvm::gsym::GsymReader`
(GsymReader.h) as executable Lean definitions over `Nat` and `List Nat`,
and proves/refutes the specified properties of the address-table binary
search, the table accessors and the byte-order handling.

Machine integers are modelled as `Nat` with explicit `% 2 ^ 64` where
64-bit wraparound matters.  Byte buffers are `List Nat` (each entry one
byte value).  The host byte order of the zero-copy `reinterpret_cast` view
is modelled as little-endian.
-/

namespace Gsym

/-- Lookup errors of the reader (spec §7): `BelowRange` when the queried
address is below the header's base address, `NotFound` when no table entry
precedes the queried address. -/
inductive LookupError where
  | BelowRange
  | NotFound
deriving DecidableEq

instance : DecidableEq (Except LookupError Nat) := fun a b =>
  match a, b with
  | .ok x, .ok y => decidable_of_iff (x = y) (by simp)
  | .error x, .error y => decidable_of_iff (x = y) (by simp)
  | .ok _, .error _ => isFalse (by simp)
  | .error _, .ok _ => isFalse (by simp)

/-- One step-bounded loop of `std::lower_bound` over random-access
iterators (libstdc++ shape): maintain `first` and `count`, probe
`first + count / 2`, and narrow to the half that keeps the first element
not less than `v`.  The extra `fuel` argument makes the recursion
structural; it starts at the initial `count`, and since `count` shrinks by
at least one per iteration while `fuel` shrinks by exactly one, the
`fuel = 0` case is only ever reached with `count = 0`, so the semantics is
that of the C++ loop. -/
def lbLoop (l : List Nat) (v : Nat) : Nat → Nat → Nat → Nat
  | 0, first, _ => first
  | fuel + 1, first, count =>
    if count = 0 then first
    else
      let step := count / 2
      if l.getD (first + step) 0 < v then
        lbLoop l v fuel (first + step + 1) (count - step - 1)
      else
        lbLoop l v fuel first step

/-- `std::lower_bound(AIO.begin(), AIO.end(), v)` as an index into `l`:
the first position whose element is not less than `v` (equal to
`l.length` when every element is less than `v`). -/
def lowerBound (l : List Nat) (v : Nat) : Nat :=
  lbLoop l v l.length 0 l.length

/-- `GsymReader::getAddressOffsetIndex<T>` (GsymReader.h:179-187), given
the decoded address-offset table `aio` (the `ArrayRef<T> AIO`).
`Iter = lower_bound(Begin, End, AddrOffset)`; if `Iter == End` or
`AddrOffset < *Iter` then `--Iter`; return `distance(Begin, Iter)`.
The return type is `uint64_t`, so when the iterator is decremented from
`Begin` the pointer distance `-1` converts to `2^64 - 1`; the uniform
rendering `(i + (2^64 - 1)) % 2^64` equals `i - 1` for `i ≥ 1` and
`2^64 - 1` for `i = 0`. -/
def getAddressOffsetIndex (aio : List Nat) (addrOffset : Nat) : Nat :=
  let i := lowerBound aio addrOffset
  if i = aio.length ∨ addrOffset < aio.getD i 0 then
    (i + (2 ^ 64 - 1)) % 2 ^ 64
  else
    i

/-- `GsymReader::addressForIndex<T>` (GsymReader.h:162-168), given the
decoded address-offset table `aio` and `Hdr->BaseAddress`: if
`Index < AIO.size()` return `AIO[Index] + Hdr->BaseAddress` (64-bit
unsigned addition), else `llvm::None`. -/
def addressForIndex (aio : List Nat) (baseAddress : Nat) (index : Nat) :
    Option Nat :=
  if index < aio.length then
    some ((aio.getD index 0 + baseAddress) % 2 ^ 64)
  else
    none

/-- Modelled from the spec: `GsymReader::getAddressIndex` is only declared
in the repository snapshot (GsymReader.h:211); its definition is in
GsymReader.cpp, which is absent.  Spec §4.2: fail with
`LookupError::BelowRange` when `addr < base_address`; compute
`target = addr - base_address`; fail with `LookupError::NotFound` when the
table is empty or `target` is smaller than the first entry's offset;
otherwise return the predecessor index computed by the lower-bound binary
search `getAddressOffsetIndex`. -/
def getAddressIndex (aio : List Nat) (baseAddress addr : Nat) :
    Except LookupError Nat :=
  if addr < baseAddress then
    .error .BelowRange
  else if aio = [] ∨ addr - baseAddress < aio.headD 0 then
    .error .NotFound
  else
    .ok (getAddressOffsetIndex aio (addr - baseAddress))

/-- Little-endian byte-list to natural number: byte 0 is least
significant. -/
def bytesToNatLE : List Nat → Nat
  | [] => 0
  | b :: bs => b % 256 + 256 * bytesToNatLE bs

/-- Read the `w`-byte little-endian word at byte offset `off` of
`bytes` (the host-order `reinterpret_cast` view of one table element). -/
def readWordLE (bytes : List Nat) (off w : Nat) : Nat :=
  bytesToNatLE ((bytes.drop off).take w)

/-- `GsymReader::getAddrOffsets<T>` (GsymReader.h:144-148): reinterpret
the raw `AddrOffsets` byte array as `AddrOffsets.size() / sizeof(T)`
elements of the header's configured width `w = sizeof(T)`; element `i`
occupies bytes `[i*w, i*w + w)` of the array (host order, modelled
little-endian). -/
def getAddrOffsets (bytes : List Nat) (w : Nat) : List Nat :=
  (List.range (bytes.length / w)).map fun i => readWordLE bytes (i * w) w

/-- A GSYM file-table entry (spec §3): a pair of string-table offsets,
directory then filename. -/
structure FileEntry where
  dir : Nat
  base : Nat
deriving DecidableEq

/-- `GsymReader::getFile` (GsymReader.h:128-132): if
`Index < Files.size()` return `Files[Index]`, else `llvm::None`. -/
def getFile (files : List FileEntry) (index : Nat) : Option FileEntry :=
  if h : index < files.length then
    some (files.get ⟨index, h⟩)
  else
    none

/-- Modelled from the spec: `GsymReader::getString` (GsymReader.h:107) is
`return StrTab[Offset];`, but `StringTable` (StringTable.h) is absent from
the repository snapshot.  Spec §4.4: return the NUL-terminated slice
starting at `offset`; out-of-range or malformed offsets degrade to an
empty string rather than failing. -/
def getString (data : List Nat) (offset : Nat) : List Nat :=
  if offset < data.length ∧ 0 ∈ data.drop offset then
    (data.drop offset).takeWhile (fun b => b ≠ 0)
  else
    []

/-- Byte order of a GSYM file or of the host. -/
inductive ByteOrder where
  | little
  | big
deriving DecidableEq

/-- Encode `v` as `w` little-endian bytes (truncating to `w` bytes). -/
def encodeWordLE : Nat → Nat → List Nat
  | 0, _ => []
  | w + 1, v => v % 256 :: encodeWordLE w (v / 256)

/-- Encode a `w`-byte word in the given byte order. -/
def encodeWord : ByteOrder → Nat → Nat → List Nat
  | .little, w, v => encodeWordLE w v
  | .big, w, v => (encodeWordLE w v).reverse

/-- Decode a byte sequence as one word of the given byte order. -/
def decodeWord : ByteOrder → List Nat → Nat
  | .little, bs => bytesToNatLE bs
  | .big, bs => bytesToNatLE bs.reverse

/-- Encode a table of `w`-byte elements in the given byte order, one
element after another. -/
def encodeTable (e : ByteOrder) (w : Nat) (vals : List Nat) : List Nat :=
  (vals.map (encodeWord e w)).flatten

/-- Modelled from the spec: the byte-order correction step of
`GsymReader::parse` (spec §4.1 steps 6-7; `parse` lives in GsymReader.cpp,
absent from the snapshot, and `SwappedData` at GsymReader.h:64-70 only
declares the owned storage).  Each `w`-byte table element is decoded
according to the file's detected byte order `e` into a native value:
when `e` is the host order this is the zero-copy direct view, otherwise
it is the element-wise byte-swapped owned copy; both yield the value of
element `i` read from bytes `[i*w, i*w + w)` in order `e`. -/
def loadTable (e : ByteOrder) (w : Nat) (bytes : List Nat) : List Nat :=
  (List.range (bytes.length / w)).map fun i =>
    decodeWord e ((bytes.drop (i * w)).take w)

theorem getD_mono {l : List Nat} (hs : List.Pairwise (fun a b => a ≤ b) l)
    {i j : Nat} (hij : i ≤ j) (hj : j < l.length) :
    l.getD i 0 ≤ l.getD j 0 := by
  rcases Nat.eq_or_lt_of_le hij with rfl | hlt
  · exact le_refl _
  · have hi : i < l.length := lt_of_le_of_lt hij hj
    rw [List.getD_eq_getElem _ _ hi, List.getD_eq_getElem _ _ hj]
    exact List.pairwise_iff_getElem.mp hs i j hi hj hlt

theorem lbLoop_zero (l : List Nat) (v first count : Nat) :
    lbLoop l v 0 first count = first := rfl

theorem lbLoop_succ_zero (l : List Nat) (v fuel first : Nat) :
    lbLoop l v (fuel + 1) first 0 = first := by
  simp [lbLoop]

theorem lbLoop_succ_pos (l : List Nat) (v fuel first count : Nat)
    (hc : count ≠ 0) :
    lbLoop l v (fuel + 1) first count =
      if l.getD (first + count / 2) 0 < v then
        lbLoop l v fuel (first + count / 2 + 1) (count - count / 2 - 1)
      else
        lbLoop l v fuel first (count / 2) := by
  simp only [lbLoop, if_neg hc]

theorem lbLoop_spec {l : List Nat} {v : Nat}
    (hs : List.Pairwise (fun a b => a ≤ b) l) :
    ∀ fuel count first, count ≤ fuel → first + count ≤ l.length →
    (∀ j, j < first → l.getD j 0 < v) →
    (∀ j, first + count ≤ j → j < l.length → v ≤ l.getD j 0) →
    (∀ j, j < lbLoop l v fuel first count → l.getD j 0 < v) ∧
    (∀ j, lbLoop l v fuel first count ≤ j → j < l.length → v ≤ l.getD j 0) ∧
    lbLoop l v fuel first count ≤ l.length := by
  intro fuel
  induction fuel with
  | zero =>
    intro count first hcf hlen h1 h2
    have hc : count = 0 := Nat.le_zero.mp hcf
    subst hc
    rw [lbLoop_zero]
    exact ⟨h1, fun j hj hjl => h2 j (by omega) hjl, by omega⟩
  | succ fuel ih =>
    intro count first hcf hlen h1 h2
    by_cases hc : count = 0
    · subst hc
      rw [lbLoop_succ_zero]
      exact ⟨h1, fun j hj hjl => h2 j (by omega) hjl, by omega⟩
    · have hcpos : 0 < count := Nat.pos_of_ne_zero hc
      have hstep : count / 2 < count := Nat.div_lt_self hcpos (by norm_num)
      have hmidlt : first + count / 2 < l.length := by omega
      rw [lbLoop_succ_pos l v fuel first count hc]
      by_cases hmid : l.getD (first + count / 2) 0 < v
      · rw [if_pos hmid]
        apply ih (count - count / 2 - 1) (first + count / 2 + 1)
          (by omega) (by omega)
        · intro j hj
          rcases Nat.lt_or_ge j first with h | h
          · exact h1 j h
          · have hm : l.getD j 0 ≤ l.getD (first + count / 2) 0 :=
              getD_mono hs (by omega) hmidlt
            omega
        · intro j hj hjl
          exact h2 j (by omega) hjl
      · rw [if_neg hmid]
        apply ih (count / 2) first (by omega) (by omega) h1
        intro j hj hjl
        rcases Nat.lt_or_ge j (first + count) with h | h
        · have hm : l.getD (first + count / 2) 0 ≤ l.getD j 0 :=
            getD_mono hs (by omega) hjl
          omega
        · exact h2 j h hjl

theorem lowerBound_spec {l : List Nat} {v : Nat}
    (hs : List.Pairwise (fun a b => a ≤ b) l) :
    (∀ j, j < lowerBound l v → l.getD j 0 < v) ∧
    (∀ j, lowerBound l v ≤ j → j < l.length → v ≤ l.getD j 0) ∧
    lowerBound l v ≤ l.length := by
  unfold lowerBound
  exact lbLoop_spec hs l.length l.length 0 le_rfl (by omega)
    (fun j hj => absurd hj (by omega)) (fun j hj hjl => absurd hjl (by omega))

theorem wrapPred {i : Nat} (h1 : 1 ≤ i) (h2 : i ≤ 2 ^ 64) :
    (i + (2 ^ 64 - 1)) % 2 ^ 64 = i - 1 := by
  have h : (2 : Nat) ^ 64 = 18446744073709551616 := by norm_num
  omega

theorem lowerBound_eq {l : List Nat} {v i : Nat}
    (hs : List.Pairwise (fun a b => a ≤ b) l) (hi : i ≤ l.length)
    (hbelow : ∀ j, j < i → l.getD j 0 < v)
    (habove : ∀ j, i ≤ j → j < l.length → v ≤ l.getD j 0) :
    lowerBound l v = i := by
  obtain ⟨hlt, hge, hle⟩ := lowerBound_spec (v := v) hs
  rcases Nat.lt_trichotomy (lowerBound l v) i with h | h | h
  · have h1 := hbelow _ h
    have h2 := hge _ le_rfl (by omega)
    omega
  · exact h
  · have h1 := hlt _ h
    have h2 := habove _ le_rfl (by omega)
    omega

theorem headD_eq_getD (l : List Nat) : l.headD 0 = l.getD 0 0 := by
  cases l <;> rfl

theorem gaoi_exact {aio : List Nat} {v i : Nat}
    (hs : List.Pairwise (fun a b => a ≤ b) aio)
    (hi : i < aio.length) (hvi : aio.getD i 0 = v)
    (hbelow : ∀ j, j < i → aio.getD j 0 < v) :
    getAddressOffsetIndex aio v = i := by
  have habove : ∀ j, i ≤ j → j < aio.length → v ≤ aio.getD j 0 := by
    intro j hij hjl
    exact hvi ▸ getD_mono hs hij hjl
  have hlb := lowerBound_eq hs (le_of_lt hi) hbelow habove
  unfold getAddressOffsetIndex
  rw [hlb, if_neg (by omega)]

theorem gaoi_miss {aio : List Nat} {v i : Nat}
    (hs : List.Pairwise (fun a b => a ≤ b) aio)
    (hi : i ≤ aio.length) (hlen : aio.length < 2 ^ 64) (hi1 : 1 ≤ i)
    (hbelow : ∀ j, j < i → aio.getD j 0 < v)
    (hcond : i = aio.length ∨ v < aio.getD i 0) :
    getAddressOffsetIndex aio v = i - 1 := by
  have habove : ∀ j, i ≤ j → j < aio.length → v ≤ aio.getD j 0 := by
    intro j hij hjl
    rcases hcond with h | h
    · omega
    · exact le_of_lt (lt_of_lt_of_le h (getD_mono hs hij hjl))
  have hlb := lowerBound_eq hs hi hbelow habove
  unfold getAddressOffsetIndex
  rw [hlb, if_pos hcond]
  exact wrapPred hi1 (by omega)


/-- Claim C1, counterexample: in the sorted table `[5, 5]` two consecutive
entries share the offset value `5`, yet the binary search of
`getAddressOffsetIndex` on `5` returns index `0`, not the largest index
`1` with that value: `std::lower_bound` lands on the first equal element
and the step-back branch is not taken on an exact match. -/
theorem C1_counterexample :
    List.Pairwise (fun a b => a ≤ b) [5, 5] ∧
    getAddressOffsetIndex [5, 5] 5 = 0 ∧
    getAddressOffsetIndex [5, 5] 5 ≠ 1 :=
  ⟨by decide, by decide, by decide⟩

/-- Claim C1 (amended): for every sorted address table in which two or
more consecutive entries share the same offset value, the binary search of
`getAddressOffsetIndex` on that shared value resolves to the first such
entry: it returns the smallest index whose stored offset equals the
queried address offset (stated as: whenever every entry before index `i`
is strictly below the value stored at `i`, the search returns `i`). -/
theorem C1_duplicates_resolve_to_first (aio : List Nat) (i : Nat)
    (hs : List.Pairwise (fun a b => a ≤ b) aio) (hi : i < aio.length)
    (hfirst : ∀ j, j < i → aio.getD j 0 < aio.getD i 0) :
    getAddressOffsetIndex aio (aio.getD i 0) = i :=
  gaoi_exact hs hi rfl hfirst

/-- Claim C1, witness: on the table `[5, 5, 7]` the shared value `5`
resolves to index `0`, the first of the two entries storing it. -/
theorem C1_witness : getAddressOffsetIndex [5, 5, 7] 5 = 0 := by
  have h := C1_duplicates_resolve_to_first [5, 5, 7] 0 (by decide)
    (by decide) (fun j hj => absurd hj (by omega))
  simpa using h

/-- Claim C5: `getAddressOffsetIndex` performs no emptiness or
below-first guard.  On an empty table, and on any sorted table queried
with an offset strictly smaller than the first (smallest) entry,
`std::lower_bound` returns the beginning of the table, the guard
decrements the iterator before the beginning, and the returned
`std::distance` converts to `2 ^ 64 - 1`, an index outside the table's
bounds. -/
theorem C5_no_guard_wraps_to_max (aio : List Nat) (t : Nat) :
    getAddressOffsetIndex [] t = 2 ^ 64 - 1 ∧
    (List.Pairwise (fun a b => a ≤ b) aio → aio ≠ [] → t < aio.headD 0 →
      getAddressOffsetIndex aio t = 2 ^ 64 - 1 ∧
      (aio.length < 2 ^ 64 → aio.length ≤ getAddressOffsetIndex aio t)) := by
  constructor
  · unfold getAddressOffsetIndex
    rw [show lowerBound [] t = 0 from rfl]
    norm_num
  · intro hs hne hbelow
    rw [headD_eq_getD] at hbelow
    have hlb : lowerBound aio t = 0 := by
      apply lowerBound_eq hs (by omega) (fun j hj => absurd hj (by omega))
      intro j hj hjl
      calc t ≤ aio.getD 0 0 := le_of_lt hbelow
        _ ≤ aio.getD j 0 := getD_mono hs (by omega) hjl
    have hres : getAddressOffsetIndex aio t = 2 ^ 64 - 1 := by
      unfold getAddressOffsetIndex
      rw [hlb, if_pos (Or.inr hbelow)]
      norm_num
    refine ⟨hres, fun hlen => ?_⟩
    rw [hres]
    have h : (2 : Nat) ^ 64 = 18446744073709551616 := by norm_num
    omega

/-- Claim C5, witness: the empty table, and the sorted table `[5, 9]`
queried with `3 < 5`, both produce the wrapped index `2 ^ 64 - 1`. -/
theorem C5_witness :
    getAddressOffsetIndex [] 3 = 2 ^ 64 - 1 ∧
    getAddressOffsetIndex [5, 9] 3 = 2 ^ 64 - 1 :=
  ⟨(C5_no_guard_wraps_to_max [] 3).1,
   ((C5_no_guard_wraps_to_max [5, 9] 3).2 (by decide) (by decide)
     (by decide)).1⟩

/-- Claim C4: `getAddressIndex` fails with `LookupError::BelowRange`
whenever the queried address is strictly below the base address, and with
`LookupError::NotFound` whenever the address is at or above the base
address but the table is empty or the offset `addr - base_address` is
strictly smaller than the first table entry's offset. -/
theorem C4_error_cases (aio : List Nat) (base addr : Nat) :
    (addr < base → getAddressIndex aio base addr = .error .BelowRange) ∧
    (base ≤ addr → (aio = [] ∨ addr - base < aio.headD 0) →
      getAddressIndex aio base addr = .error .NotFound) := by
  constructor
  · intro h
    unfold getAddressIndex
    rw [if_pos h]
  · intro h1 h2
    unfold getAddressIndex
    rw [if_neg (by omega), if_pos h2]

/-- Claim C4, witness: with base address `0x1000` and offsets
`[0x00, 0x10, 0x50]`, address `0x0FFF` fails `BelowRange`; with offsets
`[0x10, 0x50]`, address `0x1000` (offset `0x00 < 0x10`) fails
`NotFound`, as does any lookup in an empty table. -/
theorem C4_witness :
    getAddressIndex [0x00, 0x10, 0x50] 0x1000 0x0FFF =
      .error .BelowRange ∧
    getAddressIndex [0x10, 0x50] 0x1000 0x1000 = .error .NotFound ∧
    getAddressIndex [] 0x1000 0x2000 = .error .NotFound :=
  ⟨(C4_error_cases [0x00, 0x10, 0x50] 0x1000 0x0FFF).1 (by decide),
   (C4_error_cases [0x10, 0x50] 0x1000 0x1000).2 (by decide)
     (Or.inr (by decide)),
   (C4_error_cases [] 0x1000 0x2000).2 (by decide) (Or.inl rfl)⟩

/-- Claim C3, counterexample: `[7, 7]` is a sorted table (non-decreasing,
the format's stated invariant) with base address `0`; the address stored
at index `1` is `7`, yet looking that address up returns index `0`, not
`1`: the round trip fails on tables with duplicate offsets. -/
theorem C3_counterexample :
    List.Pairwise (fun a b => a ≤ b) [7, 7] ∧
    addressForIndex [7, 7] 0 1 = some 7 ∧
    getAddressIndex [7, 7] 0 7 ≠ .ok 1 ∧
    getAddressIndex [7, 7] 0 7 = .ok 0 :=
  ⟨by decide, by decide, by decide, by decide⟩

/-- Claim C3 (amended): for every strictly increasing address table whose
addresses do not wrap around 64 bits, and every index `i` within range,
the round trip `getAddressIndex (addressForIndex i)` returns exactly
`i`. -/
theorem C3_round_trip (aio : List Nat) (base i x : Nat)
    (hs : List.Pairwise (fun a b => a < b) aio)
    (hov : ∀ v ∈ aio, base + v < 2 ^ 64)
    (hix : addressForIndex aio base i = some x) :
    getAddressIndex aio base x = .ok i := by
  have hP : (2 : Nat) ^ 64 = 18446744073709551616 := by norm_num
  have hs' : List.Pairwise (fun a b => a ≤ b) aio := hs.imp le_of_lt
  unfold addressForIndex at hix
  by_cases hi : i < aio.length
  · rw [if_pos hi] at hix
    have hmem : aio.getD i 0 ∈ aio := by
      rw [List.getD_eq_getElem _ _ hi]
      exact List.getElem_mem hi
    have hbound := hov _ hmem
    have hx : x = aio.getD i 0 + base := by
      have := Option.some.inj hix
      omega
    have hfirst : ∀ j, j < i → aio.getD j 0 < aio.getD i 0 := by
      intro j hj
      rw [List.getD_eq_getElem _ _ (by omega), List.getD_eq_getElem _ _ hi]
      exact List.pairwise_iff_getElem.mp hs j i (by omega) hi hj
    have hhead : aio.getD 0 0 ≤ aio.getD i 0 := getD_mono hs' (by omega) hi
    unfold getAddressIndex
    rw [if_neg (by omega), if_neg (by
      rw [headD_eq_getD]
      push_neg
      constructor
      · exact List.ne_nil_of_length_pos (by omega)
      · omega)]
    have htarget : x - base = aio.getD i 0 := by omega
    rw [htarget]
    exact congrArg Except.ok (gaoi_exact hs' hi rfl hfirst)
  · rw [if_neg hi] at hix
    exact absurd hix (by simp)

/-- Claim C3, witness: for the strictly increasing table
`[0x00, 0x10, 0x50]` with base address `0x1000`, the address stored at
index `1` (`0x1010`) resolves back to index `1`. -/
theorem C3_witness : getAddressIndex [0x00, 0x10, 0x50] 0x1000 0x1010 = .ok 1 := by
  have h := C3_round_trip [0x00, 0x10, 0x50] 0x1000 1 0x1010 (by decide)
    (by decide) (by norm_num [addressForIndex])
  exact h

theorem getD_strict_mono {l : List Nat}
    (hs : List.Pairwise (fun a b => a < b) l)
    {i j : Nat} (hij : i < j) (hj : j < l.length) :
    l.getD i 0 < l.getD j 0 := by
  rw [List.getD_eq_getElem _ _ (by omega), List.getD_eq_getElem _ _ hj]
  exact List.pairwise_iff_getElem.mp hs i j (by omega) hj hij

theorem addressForIndex_some {aio : List Nat} {base i x : Nat}
    (hov : ∀ v ∈ aio, base + v < 2 ^ 64)
    (h : addressForIndex aio base i = some x) :
    i < aio.length ∧ x = base + aio.getD i 0 := by
  unfold addressForIndex at h
  by_cases hi : i < aio.length
  · rw [if_pos hi] at h
    refine ⟨hi, ?_⟩
    have hmem : aio.getD i 0 ∈ aio := by
      rw [List.getD_eq_getElem _ _ hi]
      exact List.getElem_mem hi
    have hb := hov _ hmem
    have hx := Option.some.inj h
    have hP : (2 : Nat) ^ 64 = 18446744073709551616 := by norm_num
    omega
  · rw [if_neg hi] at h
    exact absurd h (by simp)

theorem getAddressIndex_ok {aio : List Nat} {base a i : Nat}
    (hbase : base ≤ a) (hne : aio ≠ [])
    (hhead : aio.getD 0 0 ≤ a - base)
    (hres : getAddressOffsetIndex aio (a - base) = i) :
    getAddressIndex aio base a = .ok i := by
  unfold getAddressIndex
  rw [if_neg (by omega), if_neg (by
    rw [headD_eq_getD]
    push_neg
    exact ⟨hne, by omega⟩)]
  exact congrArg Except.ok hres

/-- Claim C2, counterexample: `[5, 5]` is a sorted table (non-decreasing,
the format's stated invariant) with base address `0`; the final index is
`1` and address `5` satisfies `address_at(1) = 5 ≤ 5`, yet the lookup
returns index `0`, not the final index `1`. -/
theorem C2_counterexample :
    List.Pairwise (fun a b => a ≤ b) [5, 5] ∧
    addressForIndex [5, 5] 0 1 = some 5 ∧
    getAddressIndex [5, 5] 0 5 ≠ .ok 1 ∧
    getAddressIndex [5, 5] 0 5 = .ok 0 :=
  ⟨by decide, by decide, by decide, by decide⟩

/-- Claim C2 (amended): for every non-empty strictly increasing address
table whose addresses do not wrap around 64 bits, every in-range index `i`
with a successor and every address `a` with
`address_at(i) ≤ a < address_at(i+1)`, `getAddressIndex` returns `i`; and
for the final index, every address at or above `address_at(last)` resolves
to `last` (half-open interval / predecessor semantics). -/
theorem C2_interval_semantics (aio : List Nat) (base i a x y : Nat)
    (hs : List.Pairwise (fun a b => a < b) aio)
    (hov : ∀ v ∈ aio, base + v < 2 ^ 64)
    (hn : aio.length < 2 ^ 64) :
    (addressForIndex aio base i = some x →
     addressForIndex aio base (i + 1) = some y →
     x ≤ a → a < y → getAddressIndex aio base a = .ok i) ∧
    (aio ≠ [] → addressForIndex aio base (aio.length - 1) = some x →
     x ≤ a → getAddressIndex aio base a = .ok (aio.length - 1)) := by
  have hs' : List.Pairwise (fun a b => a ≤ b) aio := hs.imp le_of_lt
  constructor
  · intro hix hiy hxa hay
    obtain ⟨hi1, hy⟩ := addressForIndex_some hov hiy
    obtain ⟨hi, hx⟩ := addressForIndex_some hov hix
    have hti : aio.getD i 0 ≤ a - base := by omega
    have htiy : a - base < aio.getD (i + 1) 0 := by omega
    have hhead : aio.getD 0 0 ≤ aio.getD i 0 := getD_mono hs' (by omega) hi
    apply getAddressIndex_ok (by omega) (List.ne_nil_of_length_pos (by omega))
      (by omega)
    rcases Nat.eq_or_lt_of_le hti with heq | hlt
    · exact gaoi_exact hs' hi heq
        (fun j hj => lt_of_lt_of_le (getD_strict_mono hs hj hi) (by omega))
    · have h := gaoi_miss hs' (by omega) hn (by omega)
        (fun j hj => lt_of_le_of_lt (getD_mono hs' (by omega) hi) hlt)
        (Or.inr htiy)
      simpa using h
  · intro hne hlast hxa
    have hpos : 0 < aio.length := List.length_pos.mpr hne
    obtain ⟨hl, hx⟩ := addressForIndex_some hov hlast
    have htl : aio.getD (aio.length - 1) 0 ≤ a - base := by omega
    have hhead : aio.getD 0 0 ≤ aio.getD (aio.length - 1) 0 :=
      getD_mono hs' (by omega) hl
    apply getAddressIndex_ok (by omega) hne (by omega)
    rcases Nat.eq_or_lt_of_le htl with heq | hlt
    · exact gaoi_exact hs' hl heq
        (fun j hj => lt_of_lt_of_le (getD_strict_mono hs hj hl) (by omega))
    · exact gaoi_miss hs' le_rfl hn (by omega)
        (fun j hj => lt_of_le_of_lt (getD_mono hs' (by omega) (by omega)) hlt)
        (Or.inl rfl)

/-- Claim C2, witness: spec scenario, base address `0x1000`, offsets
`[0x00, 0x10, 0x50]`: address `0x1012` lies in `[0x1010, 0x1050)` and
resolves to index `1`; address `0x1060 ≥ 0x1050` resolves to the final
index `2`. -/
theorem C2_witness :
    getAddressIndex [0x00, 0x10, 0x50] 0x1000 0x1012 = .ok 1 ∧
    getAddressIndex [0x00, 0x10, 0x50] 0x1000 0x1060 = .ok 2 := by
  constructor
  · have h := (C2_interval_semantics [0x00, 0x10, 0x50] 0x1000 1 0x1012
      0x1010 0x1050 (by decide) (by decide) (by norm_num)).1
      (by norm_num [addressForIndex]) (by norm_num [addressForIndex])
      (by norm_num) (by norm_num)
    exact h
  · have h := (C2_interval_semantics [0x00, 0x10, 0x50] 0x1000 0 0x1060
      0x1050 0 (by decide) (by decide) (by norm_num)).2
      (by decide) (by norm_num [addressForIndex]) (by norm_num)
    simpa using h

theorem getAddrOffsets_length {bytes : List Nat} {w : Nat} :
    (getAddrOffsets bytes w).length = bytes.length / w := by
  simp [getAddrOffsets]

theorem getAddrOffsets_getD {bytes : List Nat} {w i : Nat}
    (h : i < bytes.length / w) :
    (getAddrOffsets bytes w).getD i 0 = readWordLE bytes (i * w) w := by
  unfold getAddrOffsets
  rw [List.getD_eq_getElem _ _ (by simpa using h)]
  simp

/-- Claim C6: `addressForIndex` returns the base address plus the raw
address offset stored at the queried index, read at the header's
configured element width `w` (64-bit unsigned addition), when the index is
strictly below the table length, and `llvm::None` for every index at or
beyond the table length. -/
theorem C6_address_for_index (bytes : List Nat) (w base index : Nat) :
    (index < bytes.length / w →
      addressForIndex (getAddrOffsets bytes w) base index =
        some ((readWordLE bytes (index * w) w + base) % 2 ^ 64)) ∧
    (bytes.length / w ≤ index →
      addressForIndex (getAddrOffsets bytes w) base index = none) := by
  constructor
  · intro h
    unfold addressForIndex
    rw [if_pos (by rw [getAddrOffsets_length]; exact h),
      getAddrOffsets_getD h]
  · intro h
    unfold addressForIndex
    rw [if_neg (by rw [getAddrOffsets_length]; omega)]

/-- Claim C6, witness: six bytes at width 2 give three offsets
`[0x00, 0x10, 0x50]`; with base address `0x1000`, index 1 resolves to
`0x1010` and index 3 is out of bounds. -/
theorem C6_witness :
    addressForIndex (getAddrOffsets [0, 0, 16, 0, 80, 0] 2) 4096 1 =
      some 4112 ∧
    addressForIndex (getAddrOffsets [0, 0, 16, 0, 80, 0] 2) 4096 3 =
      none := by
  constructor
  · have h := (C6_address_for_index [0, 0, 16, 0, 80, 0] 2 4096 1).1
      (by norm_num)
    rw [h]
    decide
  · exact (C6_address_for_index [0, 0, 16, 0, 80, 0] 2 4096 3).2 (by norm_num)

/-- Claim C8: `getString` returns the NUL-terminated string slice starting
at the queried offset of the string table, and returns the empty string
for every out-of-range offset rather than failing; on the table
`"\0main\0foo\0"`, offset 1 yields `"main"`, offset 6 yields `"foo"`,
and offset 0 yields `""`. -/
theorem C8_get_string (data : List Nat) (offset : Nat) :
    (data.length ≤ offset → getString data offset = []) ∧
    getString [0, 109, 97, 105, 110, 0, 102, 111, 111, 0] 1 =
      [109, 97, 105, 110] ∧
    getString [0, 109, 97, 105, 110, 0, 102, 111, 111, 0] 6 =
      [102, 111, 111] ∧
    getString [0, 109, 97, 105, 110, 0, 102, 111, 111, 0] 0 = [] := by
  refine ⟨?_, by decide, by decide, by decide⟩
  intro h
  unfold getString
  rw [if_neg (fun hc => absurd hc.1 (by omega))]

/-- Claim C8, witness: the out-of-range offset 10 on the 10-byte demo
table degrades to the empty string. -/
theorem C8_witness :
    getString [0, 109, 97, 105, 110, 0, 102, 111, 111, 0] 10 = [] :=
  (C8_get_string [0, 109, 97, 105, 110, 0, 102, 111, 111, 0] 10).1
    (by norm_num)

/-- Claim C9: `getFile` returns `llvm::None` exactly when the queried
index is at or beyond the file table's length, and the file entry stored
at that index otherwise. -/
theorem C9_get_file (files : List FileEntry) (index : Nat) :
    (getFile files index = none ↔ files.length ≤ index) ∧
    ∀ h : index < files.length,
      getFile files index = some (files.get ⟨index, h⟩) := by
  constructor
  · unfold getFile
    by_cases h : index < files.length
    · rw [dif_pos h]
      exact ⟨fun hc => by simp at hc, fun hc => absurd hc (by omega)⟩
    · rw [dif_neg h]
      simp
      omega
  · intro h
    unfold getFile
    rw [dif_pos h]

/-- Claim C9, witness: a one-entry file table returns `None` at index 1
and the stored entry at index 0. -/
theorem C9_witness :
    getFile [⟨3, 4⟩] 1 = none ∧ getFile [⟨3, 4⟩] 0 = some ⟨3, 4⟩ := by
  constructor
  · exact (C9_get_file [⟨3, 4⟩] 1).1.mpr (by norm_num)
  · have h := (C9_get_file [⟨3, 4⟩] 0).2 (by norm_num)
    simpa using h

/-- Claim C10: for every element width and backing byte array,
`getAddrOffsets` yields exactly `⌊byte_length / width⌋` elements, and its
result is unchanged when the trailing remainder bytes past the last whole
element are cut off: the remainder is silently ignored and no element is
ever read from beyond the byte array. -/
theorem C10_chunk_count (bytes : List Nat) (w : Nat) :
    (getAddrOffsets bytes w).length = bytes.length / w ∧
    getAddrOffsets bytes w =
      getAddrOffsets (bytes.take (bytes.length / w * w)) w := by
  refine ⟨getAddrOffsets_length, ?_⟩
  by_cases hw : w = 0
  · subst hw
    simp [getAddrOffsets]
  · have hK : bytes.length / w * w ≤ bytes.length := Nat.div_mul_le_self _ _
    have hlen2 : (bytes.take (bytes.length / w * w)).length =
        bytes.length / w * w := by
      rw [List.length_take]
      omega
    have hdiv : bytes.length / w * w / w = bytes.length / w :=
      Nat.mul_div_cancel _ (Nat.pos_of_ne_zero hw)
    unfold getAddrOffsets
    rw [hlen2, hdiv]
    apply List.map_congr_left
    intro i hi
    rw [List.mem_range] at hi
    have h1 : (i + 1) * w ≤ bytes.length / w * w :=
      Nat.mul_le_mul_right w (by omega)
    rw [Nat.succ_mul] at h1
    unfold readWordLE
    congr 1
    rw [List.drop_take, List.take_take]
    congr 1
    omega

theorem encodeWordLE_length : ∀ w v, (encodeWordLE w v).length = w := by
  intro w
  induction w with
  | zero => intro v; rfl
  | succ w ih =>
    intro v
    simp only [encodeWordLE, List.length_cons, ih]

theorem encodeWord_length (e : ByteOrder) (w v : Nat) :
    (encodeWord e w v).length = w := by
  cases e
  · exact encodeWordLE_length w v
  · simp only [encodeWord, List.length_reverse]
    exact encodeWordLE_length w v

theorem bytesToNatLE_encodeWordLE :
    ∀ w v, bytesToNatLE (encodeWordLE w v) = v % 256 ^ w := by
  intro w
  induction w with
  | zero =>
    intro v
    simp [encodeWordLE, bytesToNatLE, Nat.mod_one]
  | succ w ih =>
    intro v
    simp only [encodeWordLE, bytesToNatLE]
    rw [ih, pow_succ', Nat.mod_mul]
    omega

theorem decodeWord_encodeWord (e : ByteOrder) (w v : Nat) :
    decodeWord e (encodeWord e w v) = v % 256 ^ w := by
  cases e
  · exact bytesToNatLE_encodeWordLE w v
  · simp only [decodeWord, encodeWord, List.reverse_reverse]
    exact bytesToNatLE_encodeWordLE w v

theorem loadTable_nil (e : ByteOrder) (w : Nat) : loadTable e w [] = [] := by
  simp [loadTable]

theorem loadTable_chunk (e : ByteOrder) {w : Nat} (hw : 0 < w)
    {chunk : List Nat} (hc : chunk.length = w) (rest : List Nat) :
    loadTable e w (chunk ++ rest) =
      decodeWord e chunk :: loadTable e w rest := by
  unfold loadTable
  have hlen : (chunk ++ rest).length = rest.length + w := by
    rw [List.length_append, hc]
    omega
  have hdr : (rest.length + w) / w = rest.length / w + 1 :=
    Nat.add_div_right _ hw
  rw [hlen, hdr, List.range_succ_eq_map, List.map_cons]
  congr 1
  · rw [Nat.zero_mul, List.drop_zero, List.take_left' hc]
  · rw [List.map_map]
    apply List.map_congr_left
    intro i hi
    simp only [Function.comp_apply]
    congr 2
    rw [Nat.succ_mul, Nat.add_comm (i * w) w, ← hc, List.drop_append]

theorem loadTable_encodeTable (e : ByteOrder) {w : Nat} (hw : 0 < w)
    (vals : List Nat) :
    loadTable e w (encodeTable e w vals) =
      vals.map (fun v => v % 256 ^ w) := by
  induction vals with
  | nil => simp [encodeTable, loadTable]
  | cons v vs ih =>
    have hsplit : encodeTable e w (v :: vs) =
        encodeWord e w v ++ encodeTable e w vs := by
      simp [encodeTable]
    rw [hsplit, loadTable_chunk e hw (encodeWord_length e w v), ih,
      decodeWord_encodeWord, List.map_cons]

/-- Claim C7: for every element width and logical table content, loading
the big-endian (byte-swapped) encoding of the table with big-endian
byte-order correction produces exactly the same decoded table as loading
the little-endian encoding directly, and therefore identical
`addressForIndex` results at every index: the swapped-data shadow copy is
observationally equivalent to the direct zero-copy view. -/
theorem C7_swap_equivalence (w : Nat) (hw : 0 < w) (vals : List Nat)
    (base index : Nat) :
    loadTable .big w (encodeTable .big w vals) =
      loadTable .little w (encodeTable .little w vals) ∧
    addressForIndex (loadTable .big w (encodeTable .big w vals)) base
        index =
      addressForIndex (loadTable .little w (encodeTable .little w vals))
        base index := by
  have h : loadTable .big w (encodeTable .big w vals) =
      loadTable .little w (encodeTable .little w vals) := by
    rw [loadTable_encodeTable _ hw, loadTable_encodeTable _ hw]
  exact ⟨h, by rw [h]⟩

/-- Claim C7, witness: the spec scenario table `[0x00, 0x10, 0x50]` at
width 2, loaded from its big-endian and little-endian encodings, yields
the same address for index 1 with base address `0x1000`. -/
theorem C7_witness :
    addressForIndex (loadTable .big 2 (encodeTable .big 2 [0, 16, 80]))
        4096 1 =
      addressForIndex
        (loadTable .little 2 (encodeTable .little 2 [0, 16, 80])) 4096 1 :=
  (C7_swap_equivalence 2 (by norm_num) [0, 16, 80] 4096 1).2

end Gsym
